import Mathlib

/-!
Verification development for the image browser (browser.cpp, dir.cpp).

The C++ program is shallowly embedded below:
* the Scaler inside `display` (browser.cpp lines 48-75) becomes `ratioOf`
  and `scaledDims` over exact rational arithmetic (the spec's "real-valued
  division"); the `static_cast<int>` on a non-negative float is floor;
* the `uchar response = cv::waitKey()` conversion (browser.cpp line 84)
  becomes `uchar_of` (int to unsigned char is reduction mod 256);
* the key dispatch and the `for` loop's own `i++` (browser.cpp lines
  137-177) become `next_index`, giving the index the loop variable holds
  at the start of the next iteration (the next displayed index);
* the pruning `while` over `cv::imread` failures (browser.cpp lines
  139-149) becomes `ensure_valid`, acting on the catalog suffix
  `files[i:]`, with `ensureFailures`/`ensureAttempts` counting its failed
  and total decode attempts;
* the whole display loop with a scripted sequence of key presses becomes
  `browse`, and `main`'s startup (the `assert(files.size() != 0)` at
  browser.cpp line 128) becomes `run_browser`;
* the recursive directory walk `file_list` (dir.cpp lines 55-104) becomes
  `file_list` over an inductive directory-tree model.
-/

/-- A decoded in-memory image: only its dimensions matter to the core
(`cv::Mat::rows`, `cv::Mat::cols`). -/
structure Raster where
  rows : Nat
  cols : Nat
deriving DecidableEq, Repr

/-- browser.cpp lines 48-50:
`ratio1 = (float)maxcols / img.cols; ratio2 = (float)maxrows / img.rows;`
`ratio = ratio1 < ratio2 ? ratio1 : ratio2;` in exact rational arithmetic. -/
def ratioOf (maxrows maxcols : Nat) (img : Raster) : ℚ :=
  let ratio1 : ℚ := (maxcols : ℚ) / (img.cols : ℚ)
  let ratio2 : ℚ := (maxrows : ℚ) / (img.rows : ℚ)
  if ratio1 < ratio2 then ratio1 else ratio2

/-- browser.cpp lines 73-75: the output Mat is created as
`cv::Mat::zeros(static_cast<int>(ratio * img.rows), static_cast<int>(ratio * img.cols), ..)`.
The cast of a non-negative value to `int` truncates, i.e. takes the floor.
Result is `(rows, cols)` of the displayed frame. -/
def scaledDims (maxrows maxcols : Nat) (img : Raster) : Nat × Nat :=
  let ratio := ratioOf maxrows maxcols img
  (⌊ratio * (img.rows : ℚ)⌋.toNat, ⌊ratio * (img.cols : ℚ)⌋.toNat)

/-- browser.cpp line 84: `uchar response = cv::waitKey();` — the `int`
returned by the wait-for-key call is converted to `unsigned char`,
which reduces it modulo 256. -/
def uchar_of (k : Int) : Nat := (k % 256).toNat

/-- browser.cpp lines 157-177 plus the `for` loop's `i++`: given the loop
variable `i` and the `uchar` response, the index the loop variable holds at
the start of the next iteration (the next displayed index), or `none` when
the user quits. ASCII codes: 'q' = 113, 'n' = 110, ' ' = 32, 'p' = 112.
`continue` and falling off the end of the body both run `i++`. -/
def next_index (i : Int) (r : Nat) : Option Int :=
  if r = 113 then none
  else if r = 110 ∨ r = 32 then some (i + 1)
  else if r = 112 then some ((if i = 0 then i - 1 else i - 2) + 1)
  else some (i + 1)

/-- browser.cpp lines 139-149, acting on the catalog suffix `files[i:]`:
`img = imread(files[i]); while (img.empty()) { erase entry i; if (i == size) return 0; img = imread(files[i]); }`.
`Sum.inl ()` is the `EndOfCatalog` signal (the `return 0` path);
`Sum.inr (img, suffix)` returns the decoded raster together with the
pruned catalog suffix from the cursor on. -/
def ensure_valid (decode : String → Option Raster) :
    List String → Sum Unit (Raster × List String)
  | [] => Sum.inl ()
  | f :: rest =>
    match decode f with
    | some img => Sum.inr (img, f :: rest)
    | none => ensure_valid decode rest

/-- Number of failed decode attempts `ensure_valid` makes on this suffix
(each one erases one catalog entry). -/
def ensureFailures (decode : String → Option Raster) : List String → Nat
  | [] => 0
  | f :: rest =>
    match decode f with
    | some _ => 0
    | none => ensureFailures decode rest + 1

/-- Total number of decode attempts (`cv::imread` calls) `ensure_valid`
makes on this suffix. -/
def ensureAttempts (decode : String → Option Raster) : List String → Nat
  | [] => 0
  | f :: rest =>
    match decode f with
    | some _ => 1
    | none => ensureAttempts decode rest + 1

/-- Result of a run of the browser loop / program. -/
inductive MainResult where
  /-- `assert(files.size() != 0)` at browser.cpp line 128 fired: fatal,
  reported abort before any frame is shown (the `EmptyCatalog` failure). -/
  | assertFailure : MainResult
  /-- the scripted key presses ran out while `cv::waitKey()` was blocking. -/
  | blocked : MainResult
  /-- the process returned this exit code. -/
  | exitCode (code : Nat) : MainResult
deriving DecidableEq, Repr

/-- browser.cpp lines 137-177: the display loop. `files` is the catalog,
`i` the loop variable, `keys` the scripted `cv::waitKey()` results (ints).
Returns the run result and the list of files displayed, in order.
The `for` condition `i < files.size()` compares `int` with `size_t`: a
negative `i` converts to a huge unsigned value, so the loop exits (the
model's `0 ≤ i` conjunct); in fact `i` is never negative at the test. -/
def browse (decode : String → Option Raster) (files : List String) (i : Int)
    (keys : List Int) : MainResult × List String :=
  if 0 ≤ i ∧ i.toNat < files.length then
    match ensure_valid decode (files.drop i.toNat) with
    | Sum.inl () => (MainResult.exitCode 0, [])
    | Sum.inr (_img, suf) =>
      let files' := files.take i.toNat ++ suf
      match keys with
      | [] => (MainResult.blocked, [suf.headI])
      | k :: keyrest =>
        match next_index i (uchar_of k) with
        | none => (MainResult.exitCode 0, [suf.headI])
        | some i' =>
          let rec_result := browse decode files' i' keyrest
          (rec_result.1, suf.headI :: rec_result.2)
  else (MainResult.exitCode 0, [])
termination_by keys.length
decreasing_by simp

/-- browser.cpp `main` after enumeration: `assert(files.size() != 0)` then
the display loop starting at index 0. -/
def run_browser (decode : String → Option Raster) (files : List String)
    (keys : List Int) : MainResult × List String :=
  if files.isEmpty then (MainResult.assertFailure, [])
  else browse decode files 0 keys

/-!
### The file enumerator (dir.cpp)

The filesystem is modelled as an inductive tree: a directory holds an
ordered list of named entries (the order `readdir` reports them in), each
entry being a regular file or a subdirectory. `is_directory` (dir.cpp lines
33-38, the authoritative `lstat` classification) corresponds to matching
the `Entry.dir` constructor.
-/

/-- One directory entry as reported by `readdir`: a regular file or a
subdirectory with its own entries. -/
inductive Entry where
  | file (name : String) : Entry
  | dir (name : String) (entries : List Entry) : Entry

/-- The `d_name` field of an entry. -/
def entryName : Entry → String
  | Entry.file n => n
  | Entry.dir n _ => n

/-- dir.cpp lines 55-104: `file_list(dirname, files)`. Walks the entries of
`dirname` in reported order; skips the `.` and `..` pseudo-entries
(line 73); builds `file_name = dirname + "/" + d_name` (line 83); recurses
into directories passing the accumulated list through (line 95); appends a
non-directory entry's path to the list (line 99). -/
def file_list : String → List Entry → List String → List String
  | _, [], files => files
  | d, Entry.file n :: rest, files =>
    if n = "." ∨ n = ".." then file_list d rest files
    else file_list d rest (files ++ [d ++ "/" ++ n])
  | d, Entry.dir n sub :: rest, files =>
    if n = "." ∨ n = ".." then file_list d rest files
    else file_list d rest (file_list (d ++ "/" ++ n) sub files)
termination_by _ es _ => sizeOf es
decreasing_by all_goals simp_wf <;> omega

/-- Modelled from the spec: the component paths (sequences of entry names
from the root) of the regular files reachable from a directory, in
depth-first traversal order, skipping the `.`/`..` pseudo-entries. -/
def dfsComps : List Entry → List (List String)
  | [] => []
  | Entry.file n :: rest =>
    if n = "." ∨ n = ".." then dfsComps rest else [n] :: dfsComps rest
  | Entry.dir n sub :: rest =>
    if n = "." ∨ n = ".." then dfsComps rest
    else (dfsComps sub).map (fun cs => n :: cs) ++ dfsComps rest
termination_by es => sizeOf es
decreasing_by all_goals simp_wf <;> omega

/-- The full path of the component path `cs` under directory `d`:
`d ++ "/" ++ c1 ++ "/" ++ ... ++ "/" ++ ck`. -/
def pathOf (d : String) (cs : List String) : String :=
  cs.foldl (fun a n => a ++ "/" ++ n) d

/-- A name a real filesystem can give an entry: no `/` in it. -/
def validName (n : String) : Bool := !n.data.contains '/'

/-- Well-formed directory tree: every name is `/`-free and sibling names
are pairwise distinct (as on a real filesystem), recursively. -/
def wf : List Entry → Bool
  | [] => true
  | e :: rest =>
    validName (entryName e) &&
    (match e with
     | Entry.file _ => true
     | Entry.dir _ sub => wf sub) &&
    rest.all (fun e2 => entryName e2 ≠ entryName e) &&
    wf rest
termination_by es => sizeOf es
decreasing_by all_goals simp_wf <;> omega

/-- Modelled from the spec: `cs` is the component path of a regular
(non-directory) file reachable from the entry list `es`, never passing
through a `.`/`..` pseudo-entry. -/
inductive ReachFile : List Entry → List String → Prop where
  | file {es : List Entry} {n : String} :
      Entry.file n ∈ es → n ≠ "." → n ≠ ".." → ReachFile es [n]
  | dir {es sub : List Entry} {n : String} {cs : List String} :
      Entry.dir n sub ∈ es → n ≠ "." → n ≠ ".." → ReachFile sub cs →
      ReachFile es (n :: cs)

/-- Modelled from the spec: `cs` is the component path of a directory
reachable from the entry list `es` (never passing through `.`/`..`). -/
inductive ReachDir : List Entry → List String → Prop where
  | dir {es sub : List Entry} {n : String} :
      Entry.dir n sub ∈ es → n ≠ "." → n ≠ ".." → ReachDir es [n]
  | sub {es sub : List Entry} {n : String} {cs : List String} :
      Entry.dir n sub ∈ es → n ≠ "." → n ≠ ".." → ReachDir sub cs →
      ReachDir es (n :: cs)

/-!
### Navigation claims
-/

/-- C1 counterexample: in state `Viewing(0)` the key `'x'` (code 120, which
is none of `'q'`, `'n'`, `'p'`, space) makes the next displayed index `1`,
not the current cursor `0`: the loop body falls through to the `for`'s own
`i++`. -/
theorem c1_counterexample :
    next_index 0 120 = some 1 ∧ (some (1 : Int) ≠ some (0 : Int)) := by
  decide

/-- C1 amended: in state `Viewing(cursor)`, every key other than `'q'`,
`'n'`, `'p'` and space advances exactly as `'n'` does: the next displayed
index is `cursor + 1` (the loop body falls through to the `for`'s own
`i++`), not the current cursor. -/
theorem c1_other_key_advances (i : Int) (r : Nat)
    (hq : r ≠ 113) (hn : r ≠ 110) (hs : r ≠ 32) (hp : r ≠ 112) :
    next_index i r = some (i + 1) := by
  simp [next_index, hq, hn, hs, hp]

/-- Witness for `c1_other_key_advances` at cursor 5 and key code 120. -/
theorem c1_other_key_advances_witness : next_index 5 120 = some 6 :=
  c1_other_key_advances 5 120 (by decide) (by decide) (by decide) (by decide)

/-- C4: in any reachable state `Viewing(k)` (so `0 ≤ k`), pressing `'p'`
(code 112) at `k = 0` makes the next displayed index `0` (the code sets
`i` to `-1` and the loop's `i++` brings it back to `0`), and at `k > 0`
makes it `k - 1` (the code sets `i` to `k - 2`, then `i++`). -/
theorem c4_prev_key (k : Int) (hk : 0 ≤ k) :
    (k = 0 → next_index k 112 = some 0) ∧
    (0 < k → next_index k 112 = some (k - 1)) := by
  constructor
  · rintro rfl
    decide
  · intro hpos
    have hne : k ≠ 0 := ne_of_gt hpos
    simp only [next_index, if_neg, hne]
    norm_num
    ring

/-- Witness for `c4_prev_key` at cursors 0 and 3. -/
theorem c4_prev_key_witness :
    next_index 0 112 = some 0 ∧ next_index 3 112 = some 2 :=
  ⟨(c4_prev_key 0 (by decide)).1 rfl, (c4_prev_key 3 (by decide)).2 (by decide)⟩

/-- C10: the key a display cycle returns is the `waitKey` int reduced
modulo 256 (`int` to `uchar` conversion), so two key codes congruent
modulo 256 yield the same `uchar` and the same navigation transition. -/
theorem c10_key_mod_256 (k₁ k₂ i : Int) (h : k₁ % 256 = k₂ % 256) :
    uchar_of k₁ = uchar_of k₂ ∧
    next_index i (uchar_of k₁) = next_index i (uchar_of k₂) := by
  have he : uchar_of k₁ = uchar_of k₂ := by
    unfold uchar_of
    rw [h]
  exact ⟨he, by rw [he]⟩

/-- Witness for `c10_key_mod_256`: 369 and 113 are congruent mod 256, and
369 triggers the same quit transition as `'q'` = 113. -/
theorem c10_key_mod_256_witness :
    uchar_of 369 = uchar_of 113 ∧
    next_index 0 (uchar_of 369) = next_index 0 (uchar_of 113) :=
  c10_key_mod_256 369 113 0 (by decide)

/-!
### Scaler claims
-/

/-- The ternary `ratio1 < ratio2 ? ratio1 : ratio2` computes the minimum. -/
theorem ratioOf_eq_min (maxrows maxcols : Nat) (img : Raster) :
    ratioOf maxrows maxcols img =
      min ((maxcols : ℚ) / (img.cols : ℚ)) ((maxrows : ℚ) / (img.rows : ℚ)) := by
  unfold ratioOf
  dsimp only
  split
  · exact (min_eq_left (le_of_lt (by assumption))).symm
  · exact (min_eq_right (not_lt.mp (by assumption))).symm

/-- C2 counterexample: raster of 5 rows × 4 columns, bound 100 rows × 3
columns. The ratio is `min(3/4, 100/5) = 3/4`, so `rows * ratio = 3.75`
(exactly representable in `float`): the code truncates to 3 rows while the
claim's `round` gives 4. -/
theorem c2_counterexample :
    scaledDims 100 3 ⟨5, 4⟩ ≠
      ((round ((5 : ℚ) * ratioOf 100 3 ⟨5, 4⟩)).toNat,
       (round ((4 : ℚ) * ratioOf 100 3 ⟨5, 4⟩)).toNat) := by
  norm_num [scaledDims, ratioOf, round_eq]
  decide

/-- C2 amended: for every raster with positive rows and columns and every
bound, with `ratio = min(bound.cols / raster.cols, bound.rows / raster.rows)`
in real-valued division, the output has exactly `floor(raster.rows * ratio)`
rows and `floor(raster.cols * ratio)` columns — truncation toward zero
(the `static_cast<int>`), not rounding. -/
theorem c2_truncated_dims (img : Raster) (maxrows maxcols : Nat)
    (hr : 0 < img.rows) (hc : 0 < img.cols) :
    scaledDims maxrows maxcols img =
      (⌊(img.rows : ℚ) *
          min ((maxcols : ℚ) / (img.cols : ℚ)) ((maxrows : ℚ) / (img.rows : ℚ))⌋.toNat,
       ⌊(img.cols : ℚ) *
          min ((maxcols : ℚ) / (img.cols : ℚ)) ((maxrows : ℚ) / (img.rows : ℚ))⌋.toNat) := by
  unfold scaledDims
  rw [ratioOf_eq_min]
  rw [mul_comm ((img.rows : ℚ)) _, mul_comm ((img.cols : ℚ)) _]

/-- Witness for `c2_truncated_dims` at a 5×4 raster and 100×3 bound. -/
theorem c2_truncated_dims_witness :
    scaledDims 100 3 ⟨5, 4⟩ =
      (⌊(5 : ℚ) * min ((3 : ℚ) / (4 : ℚ)) ((100 : ℚ) / (5 : ℚ))⌋.toNat,
       ⌊(4 : ℚ) * min ((3 : ℚ) / (4 : ℚ)) ((100 : ℚ) / (5 : ℚ))⌋.toNat) := by
  have h := c2_truncated_dims ⟨5, 4⟩ 100 3 (by decide) (by decide)
  exact_mod_cast h

/-- C6: the ratio is never clamped to a maximum of 1. For every raster
strictly smaller than the bound in both dimensions the ratio exceeds 1 and
the output dimensions are at least the input's (the image is upscaled);
in particular a 50×50 raster in a bound of 100 rows × 200 columns comes
out exactly 100×100 (ratio = min(4, 2) = 2). -/
theorem c6_no_ratio_clamp (img : Raster) (maxrows maxcols : Nat)
    (h1 : 0 < img.rows) (h2 : 0 < img.cols)
    (h3 : img.rows < maxrows) (h4 : img.cols < maxcols) :
    1 < ratioOf maxrows maxcols img ∧
    img.rows ≤ (scaledDims maxrows maxcols img).1 ∧
    img.cols ≤ (scaledDims maxrows maxcols img).2 ∧
    scaledDims 100 200 ⟨50, 50⟩ = (100, 100) := by
  have hcols : (0 : ℚ) < (img.cols : ℚ) := by exact_mod_cast h2
  have hrows : (0 : ℚ) < (img.rows : ℚ) := by exact_mod_cast h1
  have hratio : 1 < ratioOf maxrows maxcols img := by
    rw [ratioOf_eq_min]
    refine lt_min ?_ ?_
    · rw [one_lt_div hcols]
      exact_mod_cast h4
    · rw [one_lt_div hrows]
      exact_mod_cast h3
  refine ⟨hratio, ?_, ?_, by norm_num [scaledDims, ratioOf]; decide⟩
  · show img.rows ≤ ⌊ratioOf maxrows maxcols img * (img.rows : ℚ)⌋.toNat
    have hle : (img.rows : ℚ) ≤ ratioOf maxrows maxcols img * (img.rows : ℚ) :=
      le_mul_of_one_le_left hrows.le hratio.le
    have hfloor : (img.rows : ℤ) ≤ ⌊ratioOf maxrows maxcols img * (img.rows : ℚ)⌋ := by
      rw [Int.le_floor]
      exact_mod_cast hle
    omega
  · show img.cols ≤ ⌊ratioOf maxrows maxcols img * (img.cols : ℚ)⌋.toNat
    have hle : (img.cols : ℚ) ≤ ratioOf maxrows maxcols img * (img.cols : ℚ) :=
      le_mul_of_one_le_left hcols.le hratio.le
    have hfloor : (img.cols : ℤ) ≤ ⌊ratioOf maxrows maxcols img * (img.cols : ℚ)⌋ := by
      rw [Int.le_floor]
      exact_mod_cast hle
    omega

/-- Witness for `c6_no_ratio_clamp` at the 50×50 raster and 100×200 bound. -/
theorem c6_no_ratio_clamp_witness :
    1 < ratioOf 100 200 ⟨50, 50⟩ ∧
    (50 : Nat) ≤ (scaledDims 100 200 ⟨50, 50⟩).1 ∧
    (50 : Nat) ≤ (scaledDims 100 200 ⟨50, 50⟩).2 ∧
    scaledDims 100 200 ⟨50, 50⟩ = (100, 100) :=
  c6_no_ratio_clamp ⟨50, 50⟩ 100 200 (by decide) (by decide) (by decide) (by decide)

/-!
### Catalog pruner claims
-/

/-- C3: if the catalog starts with `N` undecodable entries followed by a
decodable one, `ensure_valid_at(0)` removes exactly those `N` entries
(each failed decode erases the entry at the cursor), returns the raster of
the first decodable entry, and leaves the catalog at
`original_length - N`. -/
theorem c3_prune_removes_undecodable_prefix (decode : String → Option Raster)
    (undec : List String) (d : String) (rest : List String) (r : Raster)
    (hu : ∀ u ∈ undec, decode u = none) (hd : decode d = some r) :
    ensure_valid decode (undec ++ d :: rest) = Sum.inr (r, d :: rest) ∧
    ensureFailures decode (undec ++ d :: rest) = undec.length ∧
    (d :: rest).length = (undec ++ d :: rest).length - undec.length := by
  induction undec with
  | nil =>
    refine ⟨?_, ?_, by simp⟩
    · simp [ensure_valid, hd]
    · simp [ensureFailures, hd]
  | cons u us ih =>
    have hu0 : decode u = none := hu u (List.mem_cons_self u us)
    have ih' := ih (fun v hv => hu v (List.mem_cons_of_mem u hv))
    refine ⟨?_, ?_, ?_⟩
    · simpa [ensure_valid, hu0] using ih'.1
    · simpa [ensureFailures, hu0] using ih'.2.1
    · simp

/-- Witness for `c3_prune_removes_undecodable_prefix`: two undecodable
entries before the decodable one. -/
theorem c3_prune_removes_undecodable_prefix_witness :
    ensure_valid (fun s => if s = "c.png" then some ⟨2, 3⟩ else none)
        (["a.txt", "b.txt"] ++ "c.png" :: ["d.txt"]) =
      Sum.inr (⟨2, 3⟩, "c.png" :: ["d.txt"]) ∧
    ensureFailures (fun s => if s = "c.png" then some ⟨2, 3⟩ else none)
        (["a.txt", "b.txt"] ++ "c.png" :: ["d.txt"]) = 2 ∧
    ("c.png" :: ["d.txt"]).length =
      (["a.txt", "b.txt"] ++ "c.png" :: ["d.txt"]).length - 2 := by
  have h := c3_prune_removes_undecodable_prefix
    (fun s => if s = "c.png" then some ⟨2, 3⟩ else none)
    ["a.txt", "b.txt"] "c.png" ["d.txt"] ⟨2, 3⟩ (by decide) (by decide)
  exact ⟨h.1, h.2.1, h.2.2⟩

/-- C5: if every catalog entry is undecodable, `ensure_valid_at(0)` signals
`EndOfCatalog` after attempting (and removing) every entry exactly once,
and the program terminates normally with exit code 0 (the `return (0)` in
the pruning loop) without displaying any frame. -/
theorem c5_all_undecodable_end_of_catalog (decode : String → Option Raster)
    (files : List String) (keys : List Int)
    (hne : files ≠ []) (hall : ∀ f ∈ files, decode f = none) :
    ensure_valid decode files = Sum.inl () ∧
    ensureAttempts decode files = files.length ∧
    run_browser decode files keys = (MainResult.exitCode 0, []) := by
  have hend : ∀ l : List String, (∀ f ∈ l, decode f = none) →
      ensure_valid decode l = Sum.inl () ∧ ensureAttempts decode l = l.length := by
    intro l hl
    induction l with
    | nil => exact ⟨rfl, rfl⟩
    | cons f fs ih =>
      have hf : decode f = none := hl f (List.mem_cons_self f fs)
      have ih' := ih (fun v hv => hl v (List.mem_cons_of_mem f hv))
      constructor
      · simpa [ensure_valid, hf] using ih'.1
      · simp [ensureAttempts, hf, ih'.2]
  obtain ⟨h1, h2⟩ := hend files hall
  refine ⟨h1, h2, ?_⟩
  have hlen : 0 < files.length := List.length_pos.mpr hne
  rw [run_browser, if_neg (by simpa [List.isEmpty_iff] using hne)]
  rw [browse]
  simp only [Int.toNat_zero, List.drop_zero]
  rw [if_pos ⟨le_refl 0, hlen⟩, h1]

/-- Witness for `c5_all_undecodable_end_of_catalog` on a two-entry
all-undecodable catalog. -/
theorem c5_all_undecodable_end_of_catalog_witness :
    ensure_valid (fun _ => none) ["a.txt", "b.txt"] = Sum.inl () ∧
    ensureAttempts (fun _ => none) ["a.txt", "b.txt"] = (["a.txt", "b.txt"]).length ∧
    run_browser (fun _ => none) ["a.txt", "b.txt"] [110] = (MainResult.exitCode 0, []) :=
  c5_all_undecodable_end_of_catalog (fun _ => none) ["a.txt", "b.txt"] [110]
    (by decide) (by intro f _; rfl)

/-- C9: the pruner's re-decode loop terminates — `ensure_valid` is a total
function, its failed attempts each remove one entry, their number is
bounded by the catalog length, and on success the removals account exactly
for the shrinkage. -/
theorem c9_prune_loop_bounded (decode : String → Option Raster) (s : List String) :
    ensureFailures decode s ≤ s.length ∧
    (match ensure_valid decode s with
     | Sum.inl _ => ensureFailures decode s = s.length
     | Sum.inr (_, s') => s'.length + ensureFailures decode s = s.length) := by
  induction s with
  | nil => exact ⟨Nat.le_refl 0, rfl⟩
  | cons f fs ih =>
    cases hf : decode f with
    | some img =>
      refine ⟨?_, ?_⟩
      · simp [ensureFailures, hf]
      · simp [ensure_valid, ensureFailures, hf]
    | none =>
      obtain ⟨ih1, ih2⟩ := ih
      refine ⟨?_, ?_⟩
      · simp only [ensureFailures, hf, List.length_cons]
        omega
      · simp only [ensure_valid, ensureFailures, hf, List.length_cons]
        cases hv : ensure_valid decode fs with
        | inl u =>
          rw [hv] at ih2
          omega
        | inr p =>
          rw [hv] at ih2
          obtain ⟨img, s'⟩ := p
          simpa using by omega

/-!
### Startup claim
-/

/-- C8: with an empty catalog after enumeration, the `assert` at
browser.cpp line 128 fires: the run aborts fatally before any frame is
shown (empty display trace), and that abort is not a silent normal exit. -/
theorem c8_empty_catalog_asserts (decode : String → Option Raster) (keys : List Int) :
    run_browser decode [] keys = (MainResult.assertFailure, []) ∧
    (∀ c : Nat, MainResult.assertFailure ≠ MainResult.exitCode c) := by
  constructor
  · rw [run_browser]
    simp
  · intro c h
    cases h

/-!
### Enumerator claim (C7)
-/

/-- Extending the base directory by one component. -/
theorem pathOf_cons (d n : String) (cs : List String) :
    pathOf d (n :: cs) = pathOf (d ++ "/" ++ n) cs := rfl

/-- `file_list` appends the depth-first file paths to its accumulator. -/
theorem file_list_eq_acc_append (d : String) (es : List Entry) (acc : List String) :
    file_list d es acc = acc ++ (dfsComps es).map (pathOf d) := by
  induction d, es, acc using file_list.induct with
  | case1 d acc =>
    simp [file_list, dfsComps]
  | case2 d n rest acc hskip ih =>
    simp only [file_list, if_pos hskip, dfsComps]
    exact ih
  | case3 d n rest acc hskip ih =>
    simp only [file_list, if_neg hskip, dfsComps]
    rw [ih]
    simp [pathOf]
  | case4 d n sub rest acc hskip ih =>
    simp only [file_list, if_pos hskip, dfsComps]
    exact ih
  | case5 d n sub rest acc hskip ih1 ih2 =>
    simp only [file_list, if_neg hskip, dfsComps]
    rw [ih2, ih1]
    simp [List.map_map, Function.comp_def, pathOf_cons]

/-- The characters a component path contributes after the base directory:
`'/'` then the component, for each component in turn. -/
def tailChars : List String → List Char
  | [] => []
  | n :: cs => '/' :: (n.data ++ tailChars cs)

/-- The characters of a full path: the base directory's, then the
separator-prefixed components. -/
theorem pathOf_data (d : String) (cs : List String) :
    (pathOf d cs).data = d.data ++ tailChars cs := by
  induction cs generalizing d with
  | nil => simp [pathOf, tailChars]
  | cons n cs ih =>
    rw [pathOf_cons, ih]
    have hsep : ("/" : String).data = ['/'] := rfl
    simp [tailChars, String.data_append, hsep]

/-- `tailChars` output is empty or starts with the separator. -/
theorem tailChars_shape : ∀ cs : List String,
    tailChars cs = [] ∨ ∃ l, tailChars cs = '/' :: l
  | [] => Or.inl rfl
  | n :: cs => Or.inr ⟨n.data ++ tailChars cs, rfl⟩

/-- Splitting at the first separator: a separator-free chunk followed by a
separator-headed (or empty) remainder is unique. -/
theorem sep_chunk_inj : ∀ a c x y : List Char,
    '/' ∉ a → '/' ∉ c →
    (x = [] ∨ ∃ l, x = '/' :: l) → (y = [] ∨ ∃ l, y = '/' :: l) →
    a ++ x = c ++ y → a = c ∧ x = y := by
  intro a
  induction a with
  | nil =>
    intro c x y _ hc hx _ h
    cases c with
    | nil => exact ⟨rfl, h⟩
    | cons ch c' =>
      exfalso
      simp only [List.nil_append, List.cons_append] at h
      rcases hx with rfl | ⟨l, rfl⟩
      · exact List.noConfusion h
      · have : ch = '/' := (List.cons.inj h).1.symm
        exact hc (this ▸ List.mem_cons_self ch c')
  | cons ch a' ih =>
    intro c x y ha hc hx hy h
    cases c with
    | nil =>
      exfalso
      simp only [List.nil_append, List.cons_append] at h
      rcases hy with rfl | ⟨l, rfl⟩
      · exact List.noConfusion h
      · have : ch = '/' := (List.cons.inj h).1
        exact ha (this ▸ List.mem_cons_self ch a')
    | cons ch2 c' =>
      simp only [List.cons_append] at h
      obtain ⟨hhead, htail⟩ := List.cons.inj h
      have ha' : '/' ∉ a' := fun hm => ha (List.mem_cons_of_mem ch hm)
      have hc' : '/' ∉ c' := fun hm => hc (List.mem_cons_of_mem ch2 hm)
      obtain ⟨h1, h2⟩ := ih c' x y ha' hc' hx hy htail
      exact ⟨by rw [hhead, h1], h2⟩

/-- On separator-free components, `tailChars` is injective. -/
theorem tailChars_inj : ∀ cs₁ cs₂ : List String,
    (∀ n ∈ cs₁, '/' ∉ n.data) → (∀ n ∈ cs₂, '/' ∉ n.data) →
    tailChars cs₁ = tailChars cs₂ → cs₁ = cs₂ := by
  intro cs₁
  induction cs₁ with
  | nil =>
    intro cs₂ _ _ h
    cases cs₂ with
    | nil => rfl
    | cons n cs => exact absurd h (by simp [tailChars])
  | cons n₁ cs₁' ih =>
    intro cs₂ h1 h2 h
    cases cs₂ with
    | nil => exact absurd h (by simp [tailChars])
    | cons n₂ cs₂' =>
      simp only [tailChars] at h
      have htail := (List.cons.inj h).2
      obtain ⟨hd, ht⟩ := sep_chunk_inj n₁.data n₂.data (tailChars cs₁') (tailChars cs₂')
        (h1 n₁ (List.mem_cons_self n₁ cs₁')) (h2 n₂ (List.mem_cons_self n₂ cs₂'))
        (tailChars_shape cs₁') (tailChars_shape cs₂') htail
      have hn : n₁ = n₂ := String.ext hd
      have hcs : cs₁' = cs₂' :=
        ih cs₂' (fun v hv => h1 v (List.mem_cons_of_mem n₁ hv))
          (fun v hv => h2 v (List.mem_cons_of_mem n₂ hv)) ht
      rw [hn, hcs]

/-- On separator-free components, `pathOf d` is injective. -/
theorem pathOf_inj (d : String) (cs₁ cs₂ : List String)
    (h1 : ∀ n ∈ cs₁, '/' ∉ n.data) (h2 : ∀ n ∈ cs₂, '/' ∉ n.data)
    (h : pathOf d cs₁ = pathOf d cs₂) : cs₁ = cs₂ := by
  have hdata : (pathOf d cs₁).data = (pathOf d cs₂).data := by rw [h]
  rw [pathOf_data, pathOf_data] at hdata
  exact tailChars_inj cs₁ cs₂ h1 h2 (List.append_cancel_left hdata)

/-- Unfolding `validName`. -/
theorem validName_iff (n : String) : validName n = true ↔ '/' ∉ n.data := by
  simp [validName]

/-- `wf` of a non-empty list, split into its four conjuncts. -/
theorem wf_parts {e : Entry} {rest : List Entry} (h : wf (e :: rest) = true) :
    validName (entryName e) = true ∧
    (∀ n sub, e = Entry.dir n sub → wf sub = true) ∧
    (∀ e2 ∈ rest, entryName e2 ≠ entryName e) ∧
    wf rest = true := by
  rw [wf.eq_def] at h
  simp only [Bool.and_eq_true, List.all_eq_true, decide_eq_true_eq] at h
  refine ⟨h.1.1.1, ?_, h.1.2, h.2⟩
  intro n sub he
  subst he
  exact h.1.1.2

/-- Every member of a well-formed tree has a valid name. -/
theorem wf_validName : ∀ {es : List Entry}, wf es = true →
    ∀ {e : Entry}, e ∈ es → validName (entryName e) = true := by
  intro es
  induction es with
  | nil => intro _ e he; cases he
  | cons e' rest ih =>
    intro h e he
    obtain ⟨h1, _, _, h4⟩ := wf_parts h
    rcases List.mem_cons.mp he with rfl | hm
    · exact h1
    · exact ih h4 hm

/-- Every subdirectory of a well-formed tree is well-formed. -/
theorem wf_sub_of_mem : ∀ {es : List Entry}, wf es = true →
    ∀ {n : String} {sub : List Entry}, Entry.dir n sub ∈ es → wf sub = true := by
  intro es
  induction es with
  | nil => intro _ n sub hm; cases hm
  | cons e' rest ih =>
    intro h n sub hm
    obtain ⟨_, h2, _, h4⟩ := wf_parts h
    rcases List.mem_cons.mp hm with rfl | hm'
    · exact h2 n sub rfl
    · exact ih h4 hm'

/-- In a well-formed directory, an entry is determined by its name. -/
theorem wf_name_inj : ∀ {es : List Entry}, wf es = true →
    ∀ {e₁ e₂ : Entry}, e₁ ∈ es → e₂ ∈ es → entryName e₁ = entryName e₂ → e₁ = e₂ := by
  intro es
  induction es with
  | nil => intro _ e₁ e₂ h1; cases h1
  | cons e' rest ih =>
    intro h e₁ e₂ h1 h2 hn
    obtain ⟨_, _, h3, h4⟩ := wf_parts h
    rcases List.mem_cons.mp h1 with rfl | hm1 <;> rcases List.mem_cons.mp h2 with rfl | hm2
    · rfl
    · exact absurd hn.symm (h3 e₂ hm2)
    · exact absurd hn (h3 e₁ hm1)
    · exact ih h4 hm1 hm2 hn

/-- Every depth-first component path is non-empty and starts with the name
of a top-level entry. -/
theorem dfsComps_head_name : ∀ {es : List Entry} {cs : List String},
    cs ∈ dfsComps es → ∃ n cs', cs = n :: cs' ∧ ∃ e ∈ es, entryName e = n := by
  intro es
  induction es using dfsComps.induct with
  | case1 =>
    intro cs h
    rw [dfsComps] at h
    cases h
  | case2 n rest hskip ih =>
    intro cs h
    rw [dfsComps, if_pos hskip] at h
    obtain ⟨m, cs', hcs, e, he, hn⟩ := ih h
    exact ⟨m, cs', hcs, e, List.mem_cons_of_mem _ he, hn⟩
  | case3 n rest hskip ih =>
    intro cs h
    rw [dfsComps, if_neg hskip] at h
    rcases List.mem_cons.mp h with rfl | hm
    · exact ⟨n, [], rfl, Entry.file n, List.mem_cons_self _ _, rfl⟩
    · obtain ⟨m, cs', hcs, e, he, hn⟩ := ih hm
      exact ⟨m, cs', hcs, e, List.mem_cons_of_mem _ he, hn⟩
  | case4 n sub rest hskip ih =>
    intro cs h
    rw [dfsComps, if_pos hskip] at h
    obtain ⟨m, cs', hcs, e, he, hn⟩ := ih h
    exact ⟨m, cs', hcs, e, List.mem_cons_of_mem _ he, hn⟩
  | case5 n sub rest hskip ih1 ih2 =>
    intro cs h
    rw [dfsComps, if_neg hskip] at h
    rcases List.mem_append.mp h with hm | hm
    · obtain ⟨cs', _, rfl⟩ := List.mem_map.mp hm
      exact ⟨n, cs', rfl, Entry.dir n sub, List.mem_cons_self _ _, rfl⟩
    · obtain ⟨m, cs', hcs, e, he, hn⟩ := ih2 hm
      exact ⟨m, cs', hcs, e, List.mem_cons_of_mem _ he, hn⟩

/-- Reachability is stable under adding entries to the directory. -/
theorem reachFile_cons {e : Entry} {es : List Entry} {cs : List String}
    (h : ReachFile es cs) : ReachFile (e :: es) cs := by
  cases h with
  | file hm h1 h2 => exact ReachFile.file (List.mem_cons_of_mem _ hm) h1 h2
  | dir hm h1 h2 hr => exact ReachFile.dir (List.mem_cons_of_mem _ hm) h1 h2 hr

/-- Depth-first component paths are stable under adding a front entry. -/
theorem dfsComps_mono_cons (e : Entry) {es : List Entry} {cs : List String}
    (hm : cs ∈ dfsComps es) : cs ∈ dfsComps (e :: es) := by
  cases e with
  | file n =>
    rw [dfsComps]
    split
    · exact hm
    · exact List.mem_cons_of_mem _ hm
  | dir n sub =>
    rw [dfsComps]
    split
    · exact hm
    · exact List.mem_append_right _ hm

/-- A reachable regular file yields its singleton component path. -/
theorem mem_dfsComps_of_file {n : String} : ∀ {es : List Entry},
    Entry.file n ∈ es → ¬(n = "." ∨ n = "..") → [n] ∈ dfsComps es := by
  intro es
  induction es with
  | nil => intro hm; cases hm
  | cons e rest ih =>
    intro hm hskip
    rcases List.mem_cons.mp hm with rfl | hm'
    · rw [dfsComps, if_neg hskip]
      exact List.mem_cons_self _ _
    · exact dfsComps_mono_cons e (ih hm' hskip)

/-- A component path inside a reachable subdirectory extends to one of the
parent. -/
theorem mem_dfsComps_of_dir {m : String} {sub : List Entry} {cs : List String} :
    ∀ {es : List Entry}, Entry.dir m sub ∈ es → ¬(m = "." ∨ m = "..") →
    cs ∈ dfsComps sub → m :: cs ∈ dfsComps es := by
  intro es
  induction es with
  | nil => intro hm; cases hm
  | cons e rest ih =>
    intro hm hskip hcs
    rcases List.mem_cons.mp hm with rfl | hm'
    · rw [dfsComps, if_neg hskip]
      exact List.mem_append_left _ (List.mem_map.mpr ⟨cs, hcs, rfl⟩)
    · exact dfsComps_mono_cons e (ih hm' hskip hcs)

/-- Forward half: every depth-first component path reaches a regular file. -/
theorem reach_of_mem_dfsComps : ∀ {es : List Entry}, ∀ cs,
    cs ∈ dfsComps es → ReachFile es cs := by
  intro es
  induction es using dfsComps.induct with
  | case1 =>
    intro cs h
    rw [dfsComps] at h
    cases h
  | case2 n rest hskip ih =>
    intro cs h
    rw [dfsComps, if_pos hskip] at h
    exact reachFile_cons (ih cs h)
  | case3 n rest hskip ih =>
    intro cs h
    rw [dfsComps, if_neg hskip] at h
    rcases List.mem_cons.mp h with rfl | hm
    · push_neg at hskip
      exact ReachFile.file (List.mem_cons_self _ _) hskip.1 hskip.2
    · exact reachFile_cons (ih cs hm)
  | case4 n sub rest hskip ih =>
    intro cs h
    rw [dfsComps, if_pos hskip] at h
    exact reachFile_cons (ih cs h)
  | case5 n sub rest hskip ih1 ih2 =>
    intro cs h
    rw [dfsComps, if_neg hskip] at h
    rcases List.mem_append.mp h with hm | hm
    · obtain ⟨cs', hcs', rfl⟩ := List.mem_map.mp hm
      push_neg at hskip
      exact ReachFile.dir (List.mem_cons_self _ _) hskip.1 hskip.2 (ih1 cs' hcs')
    · exact reachFile_cons (ih2 cs hm)

/-- The depth-first component paths are exactly the reachable regular
files' component paths. -/
theorem mem_dfsComps_iff {es : List Entry} {cs : List String} :
    cs ∈ dfsComps es ↔ ReachFile es cs := by
  constructor
  · exact reach_of_mem_dfsComps cs
  · intro h
    induction h with
    | file hm h1 h2 => exact mem_dfsComps_of_file hm (by rintro (h | h) <;> [exact h1 h; exact h2 h])
    | dir hm h1 h2 _ ih => exact mem_dfsComps_of_dir hm (by rintro (h | h) <;> [exact h1 h; exact h2 h]) ih

/-- No file and no directory is reachable by the empty component path. -/
theorem not_reachFile_nil {es : List Entry} (h : ReachFile es []) : False := by
  cases h

/-- The empty component path reaches no directory either. -/
theorem not_reachDir_nil {es : List Entry} (h : ReachDir es []) : False := by
  cases h

/-- In a well-formed tree the depth-first file paths are pairwise
distinct as component paths. -/
theorem dfsComps_nodup : ∀ {es : List Entry}, wf es = true → (dfsComps es).Nodup := by
  intro es
  induction es using dfsComps.induct with
  | case1 =>
    intro _
    rw [dfsComps]
    exact List.nodup_nil
  | case2 n rest hskip ih =>
    intro h
    rw [dfsComps, if_pos hskip]
    exact ih (wf_parts h).2.2.2
  | case3 n rest hskip ih =>
    intro h
    rw [dfsComps, if_neg hskip]
    refine List.nodup_cons.mpr ⟨?_, ih (wf_parts h).2.2.2⟩
    intro hmem
    obtain ⟨m, cs', hcs, e, he, hn⟩ := dfsComps_head_name hmem
    obtain ⟨rfl, -⟩ := List.cons.inj hcs
    exact (wf_parts h).2.2.1 e he (by simpa [entryName] using hn)
  | case4 n sub rest hskip ih =>
    intro h
    rw [dfsComps, if_pos hskip]
    exact ih (wf_parts h).2.2.2
  | case5 n sub rest hskip ih1 ih2 =>
    intro h
    rw [dfsComps, if_neg hskip]
    have hsub : wf sub = true := (wf_parts h).2.1 n sub rfl
    refine List.Nodup.append ?_ (ih2 (wf_parts h).2.2.2) ?_
    · exact (ih1 hsub).map (fun cs₁ cs₂ hcc => (List.cons.inj hcc).2)
    · intro x hx1 hx2
      obtain ⟨cs', -, rfl⟩ := List.mem_map.mp hx1
      obtain ⟨m, cs'', hcs, e, he, hn⟩ := dfsComps_head_name hx2
      obtain ⟨rfl, -⟩ := List.cons.inj hcs
      exact (wf_parts h).2.2.1 e he (by simpa [entryName] using hn)

/-- In a well-formed tree no component path reaches both a regular file
and a directory. -/
theorem reachFile_dir_clash : ∀ {es : List Entry} {cs : List String},
    ReachFile es cs → wf es = true → ReachDir es cs → False := by
  intro es cs hf
  induction hf with
  | file hm hn1 hn2 =>
    intro hwf hd
    cases hd with
    | dir hm2 _ _ =>
      have := wf_name_inj hwf hm hm2 (by simp [entryName])
      exact Entry.noConfusion this
    | sub hm2 _ _ hr => exact not_reachDir_nil hr
  | dir hm hn1 hn2 hr ih =>
    intro hwf hd
    cases hd with
    | dir hm2 _ _ => exact not_reachFile_nil hr
    | sub hm2 _ _ hr2 =>
      have heq := wf_name_inj hwf hm hm2 (by simp [entryName])
      obtain ⟨-, rfl⟩ : _ ∧ _ := by
        injection heq with h1 h2
        exact ⟨h1, h2⟩
      exact ih (wf_sub_of_mem hwf hm) hr2

/-- Components of a reachable regular file's path are separator-free in a
well-formed tree. -/
theorem reachFile_sepFree : ∀ {es : List Entry} {cs : List String},
    ReachFile es cs → wf es = true → ∀ n ∈ cs, '/' ∉ n.data := by
  intro es cs hf
  induction hf with
  | file hm _ _ =>
    intro hwf n hn
    rw [List.mem_singleton] at hn
    subst hn
    exact (validName_iff _).mp (wf_validName hwf hm)
  | dir hm _ _ hr ih =>
    intro hwf m hm'
    rcases List.mem_cons.mp hm' with rfl | hm''
    · exact (validName_iff _).mp (wf_validName hwf hm)
    · exact ih (wf_sub_of_mem hwf hm) m hm''

/-- Components of a reachable directory's path are separator-free in a
well-formed tree. -/
theorem reachDir_sepFree : ∀ {es : List Entry} {cs : List String},
    ReachDir es cs → wf es = true → ∀ n ∈ cs, '/' ∉ n.data := by
  intro es cs hd
  induction hd with
  | dir hm _ _ =>
    intro hwf n hn
    rw [List.mem_singleton] at hn
    subst hn
    exact (validName_iff _).mp (wf_validName hwf hm)
  | sub hm _ _ hr ih =>
    intro hwf m hm'
    rcases List.mem_cons.mp hm' with rfl | hm''
    · exact (validName_iff _).mp (wf_validName hwf hm)
    · exact ih (wf_sub_of_mem hwf hm) m hm''

/-- C7: for every well-formed directory tree (separator-free names,
distinct sibling names, as on a real filesystem), the enumerator's output
`file_list d es []` is exactly the depth-first sequence of the regular
files' full paths: it equals the depth-first component paths rendered
under the root, a path is in it iff it is a reachable regular file's path,
every path occurs exactly once, and no reachable directory's path is in
it. -/
theorem c7_enumerator (d : String) (es : List Entry) (hwf : wf es = true) :
    file_list d es [] = (dfsComps es).map (pathOf d) ∧
    (∀ p, p ∈ file_list d es [] ↔ ∃ cs, ReachFile es cs ∧ p = pathOf d cs) ∧
    (file_list d es []).Nodup ∧
    (∀ cs, ReachDir es cs → pathOf d cs ∉ file_list d es []) := by
  have heq : file_list d es [] = (dfsComps es).map (pathOf d) := by
    rw [file_list_eq_acc_append, List.nil_append]
  refine ⟨heq, ?_, ?_, ?_⟩
  · intro p
    rw [heq, List.mem_map]
    constructor
    · rintro ⟨cs, hcs, rfl⟩
      exact ⟨cs, mem_dfsComps_iff.mp hcs, rfl⟩
    · rintro ⟨cs, hr, rfl⟩
      exact ⟨cs, mem_dfsComps_iff.mpr hr, rfl⟩
  · rw [heq]
    refine List.Nodup.map_on ?_ (dfsComps_nodup hwf)
    intro x hx y hy hxy
    exact pathOf_inj d x y (reachFile_sepFree (mem_dfsComps_iff.mp hx) hwf)
      (reachFile_sepFree (mem_dfsComps_iff.mp hy) hwf) hxy
  · intro cs hrd hmem
    rw [heq] at hmem
    obtain ⟨cs', hcs', heq'⟩ := List.mem_map.mp hmem
    have hcs'' := pathOf_inj d cs' cs
      (reachFile_sepFree (mem_dfsComps_iff.mp hcs') hwf) (reachDir_sepFree hrd hwf) heq'
    subst hcs''
    exact reachFile_dir_clash (mem_dfsComps_iff.mp hcs') hwf hrd

/-- A concrete directory tree with pseudo-entries, a subdirectory and
regular files. -/
def demoTree : List Entry :=
  [Entry.file ".", Entry.file "..", Entry.file "a.png",
   Entry.dir "sub" [Entry.file "b.png"], Entry.file "c.png"]

/-- Witness for `c7_enumerator` on `demoTree` under root `"root"`. -/
theorem c7_enumerator_witness :
    wf demoTree = true ∧
    (file_list "root" demoTree [] = (dfsComps demoTree).map (pathOf "root") ∧
     (∀ p, p ∈ file_list "root" demoTree [] ↔
        ∃ cs, ReachFile demoTree cs ∧ p = pathOf "root" cs) ∧
     (file_list "root" demoTree []).Nodup ∧
     (∀ cs, ReachDir demoTree cs → pathOf "root" cs ∉ file_list "root" demoTree [])) := by
  have h : wf demoTree = true := by
    simp [wf, demoTree, validName, entryName]
  exact ⟨h, c7_enumerator "root" demoTree h⟩
